import Mathlib

/-!
Formal model of the `Intervals<T>` interval-set template (src/include/Intervals.h)
and of the numpy buffer helpers (src/include/numpy_assist.h) of the so3g
repository, together with proofs about the specified behaviour.

The interval-set part is modelled at the signed 64-bit instantiation
(`IntervalsInt`, Intervals.h line 50), with the element type embedded as `Int`.
The header declares the operations but their bodies are defined outside the
header files; each definition whose body is not in the headers is modelled from
the specification and its doc comment starts with `Modelled from the spec:`.
-/

/-- A segment, embedding `pair<T,T>` (Intervals.h line 19). -/
abbrev Seg := Int × Int

/-- The interval-set data type of Intervals.h lines 15-19: a `domain` bound and
an ordered sequence of `segments`. -/
structure Intervals where
  domain : Seg
  segments : List Seg
deriving DecidableEq

namespace Intervals

/-- Embeds the one-argument constructor `Intervals(pair<T,T> domain) :
domain{domain} {}` (Intervals.h line 23): the given pair is stored verbatim —
no validation of `domain.first <= domain.second` is performed — and `segments`
is left as an empty vector. -/
def fromPair (d : Seg) : Intervals := { domain := d, segments := [] }

/-- Embeds the two-argument constructor `Intervals(T start, T end) {
Intervals(make_pair(start, end)); }` (Intervals.h line 24).  Under C++
semantics the statement in the body constructs and discards a temporary
`Intervals` value; it does not delegate to the one-argument constructor, so the
receiver's `domain` member is default-initialized — `std::pair` of `int64_t`
value-initializes to `(0, 0)` — and `segments` is an empty vector.  The
arguments are ignored entirely. -/
def fromStartEnd (_start _end : Int) : Intervals := { domain := (0, 0), segments := [] }

/-- Modelled from the spec: the default constructor `Intervals()` (Intervals.h
line 22) is declared but its body is not in the headers.  Spec section 4.1 says
"empty set, domain defaulted to an implementation-defined full range sentinel";
for the signed 64-bit instantiation we take the full `int64_t` range. -/
def defaultIntervals : Intervals :=
  { domain := (-(2 ^ 63), 2 ^ 63 - 1), segments := [] }

/-- Ordering of segments by start endpoint, used by the normalization pass. -/
def segLE (a b : Seg) : Prop := a.1 ≤ b.1

instance : DecidableRel segLE := fun a b => inferInstanceAs (Decidable (a.1 ≤ b.1))

instance : IsTotal Seg segLE := ⟨fun a b => Int.le_total a.1 b.1⟩

instance : IsTrans Seg segLE := ⟨fun _ _ _ hab hbc => le_trans hab hbc⟩

/-- Sort segments ascending by start ("sort segments by start", spec section
4.1 on `cleanup`). -/
def sortSegs (L : List Seg) : List Seg := List.insertionSort segLE L

/-- Coalescing scan over a list of segments sorted by start: the running
segment absorbs the next one whenever the next starts at or before the running
end ("merge any pair that overlaps or is contiguous", spec section 4.1). -/
def coalesce (cur : Seg) : List Seg → List Seg
  | [] => [cur]
  | q :: rest =>
    if q.1 ≤ cur.2 then coalesce (cur.1, max cur.2 q.2) rest
    else cur :: coalesce q rest

/-- Modelled from the spec: the normalization pass of `cleanup()` (declared at
Intervals.h line 33, body not in the headers) — "sort segments by start, drop
degenerate/empty segments, merge any pair that overlaps or is contiguous"
(spec section 4.1). -/
def cleanupSegs (L : List Seg) : List Seg :=
  match (sortSegs L).filter (fun p => decide (p.1 < p.2)) with
  | [] => []
  | x :: rest => coalesce x rest

/-- `cleanup()` applied to a whole set: normalizes `segments`, leaves `domain`
unchanged. -/
def cleanup (X : Intervals) : Intervals :=
  { domain := X.domain, segments := cleanupSegs X.segments }

/-- Clip a segment to the bounds `[lo, hi]`. -/
def clipTo (lo hi : Int) (p : Seg) : Seg := (max p.1 lo, min p.2 hi)

/-- Modelled from the spec: `add_interval(start, end)` (declared at Intervals.h
line 29, body not in the headers) — insert the interval clipped to `domain`;
"if start >= end after clipping, no-op"; then re-sort and coalesce (spec
section 4.1). -/
def add_interval (X : Intervals) (s e : Int) : Intervals :=
  let c := clipTo X.domain.1 X.domain.2 (s, e)
  if c.2 ≤ c.1 then X
  else { domain := X.domain, segments := cleanupSegs (c :: X.segments) }

/-- Modelled from the spec: `merge(src)` (declared at Intervals.h line 27, body
not in the headers) — result domain is the component-wise min of starts and max
of ends; result segments are the union of the two segment lists clipped into
the new domain, then canonicalized (spec section 4.1). -/
def merge (X Y : Intervals) : Intervals :=
  let d0 := min X.domain.1 Y.domain.1
  let d1 := max X.domain.2 Y.domain.2
  { domain := (d0, d1),
    segments := cleanupSegs ((X.segments ++ Y.segments).map (clipTo d0 d1)) }

/-- Modelled from the spec: `intersect(src)` (declared at Intervals.h line 28,
body not in the headers) — result domain is the overlap of the two domains
(max of starts, min of ends); result segments are the pairwise overlaps of the
two segment lists, empty overlaps dropped, then canonicalized (spec section
4.1). -/
def intersect (X Y : Intervals) : Intervals :=
  let d0 := max X.domain.1 Y.domain.1
  let d1 := min X.domain.2 Y.domain.2
  { domain := (d0, d1),
    segments := cleanupSegs (X.segments.flatMap (fun a =>
      Y.segments.map (fun b => (max a.1 b.1, min a.2 b.2)))) }

/-- Gap scan used by complement: emits the gap from the cursor to the next
segment start whenever it is non-degenerate, then continues from that
segment's end; at the end of the list it emits the gap up to the domain end
("complement segments are the gaps between the segments and the domain
boundary, with any degenerate gaps dropped", spec section 4.1). -/
def gapsOf (cur d1 : Int) : List Seg → List Seg
  | [] => if cur < d1 then [(cur, d1)] else []
  | q :: rest => (if cur < q.1 then [(cur, q.1)] else []) ++ gapsOf q.2 d1 rest

/-- Modelled from the spec: `get_complement()` (declared `const` at Intervals.h
line 30, body not in the headers) — a new set with the same domain whose
segments are the gaps of the receiver's segments (spec section 4.1). -/
def get_complement (X : Intervals) : Intervals :=
  { domain := X.domain, segments := gapsOf X.domain.1 X.domain.2 X.segments }

/-- State-passing view of a call `X.get_complement()`: the method is declared
`const` (Intervals.h line 30) and specified "pure, non-mutating" (spec section
4.1), so the receiver after the call (first component) is the receiver before
it; the second component is the returned complement set. -/
def get_complementM (X : Intervals) : Intervals × Intervals := (X, get_complement X)

/-- Error taxonomy of spec section 7 for the interval-set core. -/
inductive IntervalsError
  | invalidDomain
deriving DecidableEq

/-- Modelled from the spec: `trim_to(start, end)` (declared at Intervals.h line
32, body not in the headers) — surfaces `InvalidDomain` when `start > end`
(spec sections 4.1 and 7); otherwise shrinks `domain` to `[start, end]`
intersected with the existing domain, clips every segment to the new domain,
and canonicalizes. -/
def trim_to (X : Intervals) (s e : Int) : Except IntervalsError Intervals :=
  if e < s then .error .invalidDomain
  else
    let d0 := max X.domain.1 s
    let d1 := min X.domain.2 e
    .ok { domain := (d0, d1), segments := cleanupSegs (X.segments.map (clipTo d0 d1)) }

/-- Pieces of segment `p` that remain after removing the range of segment `q`:
the part of `p` to the left of `q` and the part to the right, each kept only
when non-degenerate. -/
def cutOne (p q : Seg) : List Seg :=
  (if p.1 < min p.2 q.1 then [(p.1, min p.2 q.1)] else []) ++
  (if max p.1 q.2 < p.2 then [(max p.1 q.2, p.2)] else [])

/-- Remove from every segment of `ps` each of the ranges in `qs`. -/
def cutMany (ps qs : List Seg) : List Seg :=
  qs.foldl (fun acc q => acc.flatMap (fun p => cutOne p q)) ps

/-- Modelled from the spec: set difference `a -= b` (Intervals.h line 38, body
not in the headers) — "remove from `a` every sub-range covered by `b`", with
the recommended convention that only the parts of `a` lying within one of
`b`'s segments are removed and `a`'s domain is kept (spec section 4.1). -/
def isub (X Y : Intervals) : Intervals :=
  { domain := X.domain, segments := cleanupSegs (cutMany X.segments Y.segments) }

/-- Operator table of spec section 4.1: unary negation returns
`get_complement()` (Intervals.h line 36). -/
def op_neg (X : Intervals) : Intervals := get_complement X

/-- Operator table of spec section 4.1: `a += b` is `a.merge(b)` (Intervals.h
line 37). -/
def op_iadd (X Y : Intervals) : Intervals := merge X Y

/-- Operator table of spec section 4.1: `a -= b` is set difference (Intervals.h
line 38). -/
def op_isub (X Y : Intervals) : Intervals := isub X Y

/-- Operator table of spec section 4.1: `a + b` is a copy of `a` merged with
`b` (Intervals.h line 39); on values, the same function as `merge`. -/
def op_add (X Y : Intervals) : Intervals := merge X Y

/-- Operator table of spec section 4.1: `a - b` is a copy of `a` minus `b`
(Intervals.h line 40); on values, the same function as `isub`. -/
def op_sub (X Y : Intervals) : Intervals := isub X Y

/-- Operator table of spec section 4.1: `a * b` is a copy of `a` intersected
with `b` (Intervals.h line 41); on values, the same function as `intersect`. -/
def op_mul (X Y : Intervals) : Intervals := intersect X Y

/-- Segments are pairwise separated: every earlier segment ends strictly before
a later one starts (non-overlapping and non-adjacent). -/
def SepSegs (L : List Seg) : Prop := L.Pairwise (fun a b : Seg => a.2 < b.1)

/-- Every segment is non-degenerate: start strictly below end. -/
def NonemptySegs (L : List Seg) : Prop := ∀ p ∈ L, p.1 < p.2

/-- Every segment lies within the bounds `[lo, hi]`. -/
def WithinSegs (lo hi : Int) (L : List Seg) : Prop := ∀ p ∈ L, lo ≤ p.1 ∧ p.2 ≤ hi

/-- Canonical form of spec section 3: segments sorted ascending by start,
pairwise non-overlapping and non-adjacent, each non-empty, each contained in
the domain. -/
def InCanonicalForm (X : Intervals) : Prop :=
  X.segments.Pairwise segLE ∧
  SepSegs X.segments ∧
  NonemptySegs X.segments ∧
  WithinSegs X.domain.1 X.domain.2 X.segments

instance (X : Intervals) : Decidable (InCanonicalForm X) := by
  unfold InCanonicalForm SepSegs NonemptySegs WithinSegs
  infer_instance

/-- The values of the type observable by a caller: those produced by the public
constructors, closed under the public operations.  The operators of Intervals.h
lines 36-41 reduce to these operations by the table in spec section 4.1 (on
values, `op_neg` is `get_complement`, `op_iadd` and `op_add` are `merge`,
`op_isub` and `op_sub` are `isub`, and `op_mul` is `intersect`, definitionally),
so sequences built from the operators are covered as well. -/
inductive Reachable : Intervals → Prop
  | ctor_default : Reachable defaultIntervals
  | ctor_pair (d : Seg) : Reachable (fromPair d)
  | ctor_start_end (s e : Int) : Reachable (fromStartEnd s e)
  | step_add (X : Intervals) (s e : Int) : Reachable X → Reachable (add_interval X s e)
  | step_merge (X Y : Intervals) : Reachable X → Reachable Y → Reachable (merge X Y)
  | step_intersect (X Y : Intervals) : Reachable X → Reachable Y → Reachable (intersect X Y)
  | step_compl (X : Intervals) : Reachable X → Reachable (get_complement X)
  | step_isub (X Y : Intervals) : Reachable X → Reachable Y → Reachable (isub X Y)
  | step_trim (X : Intervals) (s e : Int) (Y : Intervals) :
      Reachable X → trim_to X s e = .ok Y → Reachable Y
  | step_cleanup (X : Intervals) : Reachable X → Reachable (cleanup X)

end Intervals

/-- Model of the fields of `Py_buffer` consulted by numpy_assist.h: `format`
(`none` embeds a NULL `format` pointer, and an empty list the empty format
string), `itemsize`, and `shape` (the first `ndim` entries of the shape
array, as collected into `vshape` at lines 167-169). -/
structure PyBuffer where
  format : Option (List Char)
  itemsize : Nat
  shape : List Int
deriving DecidableEq

/-- Embeds `_check_buffer_helper<T>(view, opts)` (numpy_assist.h lines 15-23):
false when `format` is NULL or empty; otherwise true iff the first format
character is one of `opts` and `itemsize` equals `sizeof(T)` (passed here as
`size`). -/
def _check_buffer_helper (view : PyBuffer) (opts : List Char) (size : Nat) : Bool :=
  match view.format with
  | none => false
  | some [] => false
  | some (c :: _) => opts.any (fun o => c == o) && view.itemsize == size

/-- The template parameter `T` of `check_buffer_type<T>`, abstracted to what
the overload dispatch of numpy_assist.h lines 25-47 depends on: an integral
type of a given `sizeof`, the `float` or `double` specializations, or any
other non-integral type. -/
inductive CType
  | integral (size : Nat)
  | float
  | double
  | otherNonIntegral
deriving DecidableEq

/-- Embeds the `check_buffer_type<T>` overloads and specializations
(numpy_assist.h lines 25-47): integral types check against format codes
`bhilq`, `float` against `f` with item size 4, `double` against `d` with item
size 8, and every other non-integral type yields false. -/
def check_buffer_type (t : CType) (view : PyBuffer) : Bool :=
  match t with
  | .integral n => _check_buffer_helper view (['b', 'h', 'i', 'l', 'q']) n
  | .float => _check_buffer_helper view (['f']) 4
  | .double => _check_buffer_helper view (['d']) 8
  | .otherNonIntegral => false

/-- Embeds `type_name<T>()` (numpy_assist.h lines 56-79): the four
specializations name their numpy dtype; everything else reports unknown. -/
def type_name (t : CType) : String :=
  match t with
  | .integral 4 => "int32"
  | .integral 8 => "int64"
  | .float => "float32"
  | .double => "float64"
  | _ => "unknown"

/-- Embeds the shape-checking loop of the `BufferWrapper<T>` constructor
(numpy_assist.h lines 171-190): pattern entries are processed in order, each
only while the loop guard `j < vshape.size()` holds; `-1` advances the cursor
by one, `-2` places the cursor so that the remaining pattern entries align
with the end of the shape, `-3` moves the cursor to `ndim`, and any other
entry must equal the axis length under the cursor.  The C++ cursor is a
signed `int` compared against the unsigned `vshape.size()`, so when a `-2`
jump makes the cursor negative its conversion to `size_t` is huge, the guard
fails and the loop exits with pattern entries left over, failing the check;
the guard is therefore `0 ≤ j ∧ j < ndim` here, every axis read is in range,
and the final cursor comparison of line 191 (also signed against unsigned)
agrees with plain integer equality since a negative cursor converts to a
value no `vector` length reaches. -/
def shapeMatchFrom (v : List Int) : List Int → Int → Bool
  | [], j => j == (v.length : Int)
  | s :: p, j =>
    if 0 ≤ j ∧ j < (v.length : Int) then
      if s == -1 then shapeMatchFrom v p (j + 1)
      else if s == -2 then shapeMatchFrom v p ((v.length : Int) - (p.length : Int))
      else if s == -3 then shapeMatchFrom v p (v.length : Int)
      else if v.getD j.toNat 0 == s then shapeMatchFrom v p (j + 1)
      else false
    else false

/-- Overall success condition of the shape check: the loop starts at pattern
index 0 and axis cursor 0, and succeeds iff it consumes the whole pattern with
the cursor ending exactly at `ndim` (numpy_assist.h line 191). -/
def shapeMatch (shape vshape : List Int) : Bool := shapeMatchFrom vshape shape 0

/-- The three exception kinds thrown by the `BufferWrapper<T>` constructors
(numpy_assist.h lines 150, 165, 195), identified by their kind and the `name`
argument; the dtype error also carries `type_name<T>()`.  The prose message of
the shape error is not modelled. -/
inductive BufferError
  | buffer (name : String)
  | dtype (name tname : String)
  | shape (name : String)
deriving DecidableEq

/-- Embeds the constructor with no shape or type checking (numpy_assist.h
lines 143-152).  `none` embeds a source object on which `PyObject_GetBuffer`
fails, i.e. one not exposing the buffer interface; in that case an `optional`
wrapper is returned with its buffer pointer unset (`.ok none`), a
non-`optional` one throws `buffer_exception`. -/
def bufferWrapperPlain (name : String) (src : Option PyBuffer) (optional : Bool) :
    Except BufferError (Option PyBuffer) :=
  match src with
  | some b => .ok (some b)
  | none => if optional then .ok none else .error (.buffer name)

/-- Embeds the constructor with shape and type checking (numpy_assist.h lines
154-197): first the parent constructor runs; a wrapper whose buffer pointer is
unset (the successful `optional` case) is returned as is; otherwise the element
type is checked (`dtype_exception`), then the shape pattern (`shape_exception`),
and on success the wrapper holds the validated view. -/
def bufferWrapperChecked (t : CType) (name : String) (src : Option PyBuffer)
    (optional : Bool) (shape : List Int) : Except BufferError (Option PyBuffer) :=
  match bufferWrapperPlain name src optional with
  | .error err => .error err
  | .ok none => .ok none
  | .ok (some b) =>
    if !check_buffer_type t b then .error (.dtype name (type_name t))
    else if !shapeMatch shape b.shape then .error (.shape name)
    else .ok (some b)

/-- Spec-side reading of the type check (spec sections 6 and 7, claim wording):
for an integral type the format string exists, is non-empty, starts with one
of the integer codes and the item size equals the type's size; analogously for
`float` and `double` with their single codes; no other non-integral type is
ever accepted. -/
def SpecBufferTypeOk (t : CType) (view : PyBuffer) : Prop :=
  match t with
  | .integral n => ∃ c cs, view.format = some (c :: cs) ∧
      c ∈ (['b', 'h', 'i', 'l', 'q'] : List Char) ∧ view.itemsize = n
  | .float => ∃ c cs, view.format = some (c :: cs) ∧ c = 'f' ∧ view.itemsize = 4
  | .double => ∃ c cs, view.format = some (c :: cs) ∧ c = 'd' ∧ view.itemsize = 8
  | .otherNonIntegral => False

namespace Intervals

lemma coalesce_head (L : List Seg) : ∀ cur : Seg,
    ∃ e2 t, coalesce cur L = (cur.1, e2) :: t ∧ cur.2 ≤ e2 := by
  induction L with
  | nil => exact fun cur => ⟨cur.2, [], rfl, le_refl _⟩
  | cons q rest ih =>
    intro cur
    by_cases h : q.1 ≤ cur.2
    · obtain ⟨e2, t, heq, hle⟩ := ih (cur.1, max cur.2 q.2)
      refine ⟨e2, t, ?_, le_trans (le_max_left _ _) hle⟩
      simp only [coalesce]
      rw [if_pos h]
      exact heq
    · refine ⟨cur.2, coalesce q rest, ?_, le_refl _⟩
      simp only [coalesce]
      rw [if_neg h]

lemma coalesce_starts (L : List Seg) : ∀ cur : Seg, ∀ q ∈ coalesce cur L,
    q.1 = cur.1 ∨ ∃ p ∈ L, q.1 = p.1 := by
  induction L with
  | nil =>
    intro cur q hq
    simp only [coalesce, List.mem_singleton] at hq
    exact Or.inl (by rw [hq])
  | cons r rest ih =>
    intro cur q hq
    by_cases h : r.1 ≤ cur.2
    · simp only [coalesce] at hq
      rw [if_pos h] at hq
      rcases ih (cur.1, max cur.2 r.2) q hq with h1 | ⟨p, hp, hqp⟩
      · exact Or.inl h1
      · exact Or.inr ⟨p, List.mem_cons_of_mem _ hp, hqp⟩
    · simp only [coalesce] at hq
      rw [if_neg h] at hq
      rcases List.mem_cons.mp hq with rfl | hq2
      · exact Or.inl rfl
      · rcases ih r q hq2 with h1 | ⟨p, hp, hqp⟩
        · exact Or.inr ⟨r, List.mem_cons_self _ _, h1⟩
        · exact Or.inr ⟨p, List.mem_cons_of_mem _ hp, hqp⟩

lemma coalesce_bounds (L : List Seg) : ∀ (cur : Seg) (lo hi : Int),
    lo ≤ cur.1 → cur.2 ≤ hi → WithinSegs lo hi L → WithinSegs lo hi (coalesce cur L) := by
  induction L with
  | nil =>
    intro cur lo hi h1 h2 _ p hp
    simp only [coalesce, List.mem_singleton] at hp
    rw [hp]
    exact ⟨h1, h2⟩
  | cons r rest ih =>
    intro cur lo hi h1 h2 hL
    have hr := hL r (List.mem_cons_self _ _)
    have hrest : WithinSegs lo hi rest := fun p hp => hL p (List.mem_cons_of_mem _ hp)
    by_cases h : r.1 ≤ cur.2
    · intro p hp
      simp only [coalesce] at hp
      rw [if_pos h] at hp
      exact ih (cur.1, max cur.2 r.2) lo hi h1 (max_le h2 hr.2) hrest p hp
    · intro p hp
      simp only [coalesce] at hp
      rw [if_neg h] at hp
      rcases List.mem_cons.mp hp with rfl | hp2
      · exact ⟨h1, h2⟩
      · exact ih r lo hi hr.1 hr.2 hrest p hp2

lemma coalesce_canon (L : List Seg) : ∀ cur : Seg, (cur :: L).Pairwise segLE →
    (∀ p ∈ cur :: L, p.1 < p.2) →
    SepSegs (coalesce cur L) ∧ NonemptySegs (coalesce cur L) := by
  induction L with
  | nil =>
    intro cur _ hne
    refine ⟨List.pairwise_singleton _ _, ?_⟩
    intro p hp
    simp only [coalesce, List.mem_singleton] at hp
    rw [hp]
    exact hne cur (List.mem_cons_self _ _)
  | cons r rest ih =>
    intro cur hsort hne
    have hcr : segLE cur r := (List.pairwise_cons.mp hsort).1 r (List.mem_cons_self _ _)
    have hcrest : ∀ p ∈ rest, segLE cur p := fun p hp =>
      (List.pairwise_cons.mp hsort).1 p (List.mem_cons_of_mem _ hp)
    have hsort2 : (r :: rest).Pairwise segLE := (List.pairwise_cons.mp hsort).2
    have hrrest : ∀ p ∈ rest, segLE r p := (List.pairwise_cons.mp hsort2).1
    by_cases h : r.1 ≤ cur.2
    · have hsort3 : ((cur.1, max cur.2 r.2) :: rest).Pairwise segLE := by
        rw [List.pairwise_cons]
        exact ⟨fun p hp => hcrest p hp, (List.pairwise_cons.mp hsort2).2⟩
      have hne3 : ∀ p ∈ (cur.1, max cur.2 r.2) :: rest, p.1 < p.2 := by
        intro p hp
        rcases List.mem_cons.mp hp with rfl | hp2
        · exact lt_of_lt_of_le (hne cur (List.mem_cons_self _ _)) (le_max_left _ _)
        · exact hne p (List.mem_cons_of_mem _ (List.mem_cons_of_mem _ hp2))
      have := ih (cur.1, max cur.2 r.2) hsort3 hne3
      constructor
      · show SepSegs (coalesce cur (r :: rest))
        simp only [coalesce]
        rw [if_pos h]
        exact this.1
      · show NonemptySegs (coalesce cur (r :: rest))
        simp only [coalesce]
        rw [if_pos h]
        exact this.2
    · have hne2 : ∀ p ∈ r :: rest, p.1 < p.2 := fun p hp =>
        hne p (List.mem_cons_of_mem _ hp)
      obtain ⟨ihsep, ihne⟩ := ih r hsort2 hne2
      have hcur2 : ∀ q ∈ coalesce r rest, cur.2 < q.1 := by
        intro q hq
        rcases coalesce_starts rest r q hq with h1 | ⟨p, hp, hqp⟩
        · rw [h1]; omega
        · rw [hqp]
          have := hrrest p hp
          unfold segLE at this
          omega
      constructor
      · show SepSegs (coalesce cur (r :: rest))
        simp only [coalesce]
        rw [if_neg h]
        exact List.pairwise_cons.mpr ⟨hcur2, ihsep⟩
      · show NonemptySegs (coalesce cur (r :: rest))
        simp only [coalesce]
        rw [if_neg h]
        intro p hp
        rcases List.mem_cons.mp hp with rfl | hp2
        · exact hne p (List.mem_cons_self _ _)
        · exact ihne p hp2

lemma coalesce_id (L : List Seg) : ∀ cur : Seg, SepSegs (cur :: L) →
    coalesce cur L = cur :: L := by
  induction L with
  | nil => intro cur _; rfl
  | cons r rest ih =>
    intro cur h
    have h1 : cur.2 < r.1 := (List.pairwise_cons.mp h).1 r (List.mem_cons_self _ _)
    have h2 : ¬ (r.1 ≤ cur.2) := by omega
    simp only [coalesce]
    rw [if_neg h2, ih r (List.pairwise_cons.mp h).2]

lemma sortSegs_sorted (L : List Seg) : (sortSegs L).Pairwise segLE :=
  List.sorted_insertionSort segLE L

lemma mem_sortSegs {L : List Seg} {p : Seg} : p ∈ sortSegs L ↔ p ∈ L :=
  List.mem_insertionSort segLE

lemma cleanupSegs_canon (L : List Seg) :
    SepSegs (cleanupSegs L) ∧ NonemptySegs (cleanupSegs L) := by
  cases hM : (sortSegs L).filter (fun p => decide (p.1 < p.2)) with
  | nil =>
    simp only [cleanupSegs, hM]
    exact ⟨List.Pairwise.nil, fun p hp => absurd hp (List.not_mem_nil p)⟩
  | cons x rest =>
    have hsort : (x :: rest).Pairwise segLE := by
      rw [← hM]
      exact (sortSegs_sorted L).filter _
    have hne : ∀ p ∈ x :: rest, p.1 < p.2 := by
      intro p hp
      rw [← hM] at hp
      exact of_decide_eq_true (List.mem_filter.mp hp).2
    simp only [cleanupSegs, hM]
    exact coalesce_canon rest x hsort hne

lemma cleanupSegs_bounds (L : List Seg) (lo hi : Int) (h : WithinSegs lo hi L) :
    WithinSegs lo hi (cleanupSegs L) := by
  have hfil : WithinSegs lo hi ((sortSegs L).filter (fun p => decide (p.1 < p.2))) := by
    intro p hp
    exact h p (mem_sortSegs.mp (List.mem_filter.mp hp).1)
  cases hM : (sortSegs L).filter (fun p => decide (p.1 < p.2)) with
  | nil =>
    simp only [cleanupSegs, hM]
    exact fun p hp => absurd hp (List.not_mem_nil p)
  | cons x rest =>
    rw [hM] at hfil
    have hx := hfil x (List.mem_cons_self _ _)
    simp only [cleanupSegs, hM]
    exact coalesce_bounds rest x lo hi hx.1 hx.2
      (fun p hp => hfil p (List.mem_cons_of_mem _ hp))

lemma sep_sorted (L : List Seg) (hsep : SepSegs L) (hne : NonemptySegs L) :
    L.Pairwise segLE :=
  hsep.imp_of_mem (fun {a _} ha _ hab => le_of_lt (lt_trans (hne a ha) hab))

lemma cleanupSegs_id (L : List Seg) (hsep : SepSegs L) (hne : NonemptySegs L) :
    cleanupSegs L = L := by
  have hs : List.Sorted segLE L := sep_sorted L hsep hne
  have h1 : sortSegs L = L := hs.insertionSort_eq
  have h2 : L.filter (fun p => decide (p.1 < p.2)) = L :=
    List.filter_eq_self.mpr (fun p hp => decide_eq_true (hne p hp))
  unfold cleanupSegs
  rw [h1, h2]
  cases L with
  | nil => rfl
  | cons x rest => exact coalesce_id rest x hsep

lemma cleanupSegs_idem (L : List Seg) : cleanupSegs (cleanupSegs L) = cleanupSegs L :=
  cleanupSegs_id _ (cleanupSegs_canon L).1 (cleanupSegs_canon L).2

end Intervals

namespace Intervals

lemma gapsOf_canon (L : List Seg) : ∀ cur d1 : Int, SepSegs L → NonemptySegs L →
    (∀ p ∈ L, cur ≤ p.1 ∧ p.2 ≤ d1) →
    SepSegs (gapsOf cur d1 L) ∧ NonemptySegs (gapsOf cur d1 L) ∧
      ∀ q ∈ gapsOf cur d1 L, cur ≤ q.1 ∧ q.2 ≤ d1 := by
  induction L with
  | nil =>
    intro cur d1 _ _ _
    by_cases h : cur < d1
    · simp only [gapsOf]
      rw [if_pos h]
      refine ⟨List.pairwise_singleton _ _, ?_, ?_⟩
      · intro p hp
        simp only [List.mem_singleton] at hp
        rw [hp]
        exact h
      · intro q hq
        simp only [List.mem_singleton] at hq
        rw [hq]
        exact ⟨le_refl _, le_refl _⟩
    · simp only [gapsOf]
      rw [if_neg h]
      exact ⟨List.Pairwise.nil, fun p hp => absurd hp (List.not_mem_nil p),
        fun p hp => absurd hp (List.not_mem_nil p)⟩
  | cons r rest ih =>
    intro cur d1 hsep hne hbd
    have hr := hbd r (List.mem_cons_self _ _)
    have hrne : r.1 < r.2 := hne r (List.mem_cons_self _ _)
    have hsep2 : SepSegs rest := (List.pairwise_cons.mp hsep).2
    have hhead : ∀ p ∈ rest, r.2 < p.1 := (List.pairwise_cons.mp hsep).1
    have hbd2 : ∀ p ∈ rest, r.2 ≤ p.1 ∧ p.2 ≤ d1 := fun p hp =>
      ⟨le_of_lt (hhead p hp), (hbd p (List.mem_cons_of_mem _ hp)).2⟩
    have hne2 : NonemptySegs rest := fun p hp => hne p (List.mem_cons_of_mem _ hp)
    obtain ⟨ihsep, ihne, ihbd⟩ := ih r.2 d1 hsep2 hne2 hbd2
    have hr1 : cur ≤ r.1 := hr.1
    have hr2 : r.2 ≤ d1 := hr.2
    by_cases h : cur < r.1
    · simp only [gapsOf]
      rw [if_pos h]
      simp only [List.singleton_append]
      refine ⟨?_, ?_, ?_⟩
      · refine List.pairwise_cons.mpr ⟨?_, ihsep⟩
        intro q hq
        have h2 := (ihbd q hq).1
        show r.1 < q.1
        omega
      · intro p hp
        rcases List.mem_cons.mp hp with rfl | hp2
        · exact h
        · exact ihne p hp2
      · intro q hq
        rcases List.mem_cons.mp hq with rfl | hq2
        · refine ⟨le_refl _, ?_⟩
          show r.1 ≤ d1
          omega
        · have h2 := (ihbd q hq2).1
          exact ⟨by omega, (ihbd q hq2).2⟩
    · simp only [gapsOf]
      rw [if_neg h]
      simp only [List.nil_append]
      refine ⟨ihsep, ihne, ?_⟩
      intro q hq
      have h2 := (ihbd q hq).1
      exact ⟨by omega, (ihbd q hq).2⟩

lemma gapsOf_gapsOf (d1 : Int) (rest : List Seg) : ∀ s e : Int, s < e →
    SepSegs ((s, e) :: rest) → NonemptySegs ((s, e) :: rest) →
    (∀ p ∈ (s, e) :: rest, p.2 ≤ d1) →
    gapsOf s d1 (gapsOf e d1 rest) = (s, e) :: rest := by
  induction rest with
  | nil =>
    intro s e hse _ _ hbd
    have he : e ≤ d1 := hbd (s, e) (List.mem_cons_self _ _)
    by_cases h : e < d1
    · show gapsOf s d1 (gapsOf e d1 []) = [(s, e)]
      simp only [gapsOf]
      rw [if_pos h]
      simp only [gapsOf]
      rw [if_pos hse, if_neg (lt_irrefl d1)]
      simp
    · have hed : e = d1 := le_antisymm he (not_lt.mp h)
      show gapsOf s d1 (gapsOf e d1 []) = [(s, e)]
      simp only [gapsOf]
      rw [if_neg h]
      simp only [gapsOf]
      rw [if_pos (show s < d1 by omega), hed]
  | cons r rest2 ih =>
    intro s e hse hsep hne hbd
    have h1 : e < r.1 := (List.pairwise_cons.mp hsep).1 r (List.mem_cons_self _ _)
    have hsep2 : SepSegs (r :: rest2) := (List.pairwise_cons.mp hsep).2
    have hne2 : NonemptySegs (r :: rest2) := fun p hp => hne p (List.mem_cons_of_mem _ hp)
    have hbd2 : ∀ p ∈ r :: rest2, p.2 ≤ d1 := fun p hp => hbd p (List.mem_cons_of_mem _ hp)
    have hrne : r.1 < r.2 := hne2 r (List.mem_cons_self _ _)
    have key : gapsOf r.1 d1 (gapsOf r.2 d1 rest2) = (r.1, r.2) :: rest2 :=
      ih r.1 r.2 hrne hsep2 hne2 hbd2
    have e1 : gapsOf e d1 (r :: rest2) = (e, r.1) :: gapsOf r.2 d1 rest2 := by
      simp only [gapsOf]
      rw [if_pos h1]
      simp
    rw [e1]
    simp only [gapsOf]
    rw [if_pos hse]
    simp only [List.singleton_append]
    rw [key]

lemma compl_compl (X : Intervals) (h : InCanonicalForm X) :
    get_complement (get_complement X) = X := by
  obtain ⟨⟨d0, d1⟩, segs⟩ := X
  obtain ⟨_, hsep, hne, hbd⟩ := h
  have hL : gapsOf d0 d1 (gapsOf d0 d1 segs) = segs := by
    cases segs with
    | nil =>
      by_cases h01 : d0 < d1
      · simp only [gapsOf]
        rw [if_pos h01]
        simp only [gapsOf]
        rw [if_neg (lt_irrefl d0), if_neg (lt_irrefl d1)]
        simp
      · simp only [gapsOf]
        rw [if_neg h01]
        simp only [gapsOf]
        rw [if_neg h01]
    | cons r rest =>
      have hd0 : d0 ≤ r.1 := (hbd r (List.mem_cons_self _ _)).1
      have hrne : r.1 < r.2 := hne r (List.mem_cons_self _ _)
      have hbd3 : ∀ p ∈ (r.1, r.2) :: rest, p.2 ≤ d1 := fun p hp => (hbd p hp).2
      have key : gapsOf r.1 d1 (gapsOf r.2 d1 rest) = (r.1, r.2) :: rest :=
        gapsOf_gapsOf d1 rest r.1 r.2 hrne hsep hne hbd3
      have e1 : gapsOf d0 d1 (r :: rest) =
          (if d0 < r.1 then [(d0, r.1)] else []) ++ gapsOf r.2 d1 rest := by
        simp only [gapsOf]
      by_cases h0 : d0 < r.1
      · rw [e1, if_pos h0]
        simp only [List.singleton_append]
        simp only [gapsOf]
        rw [if_neg (lt_irrefl d0)]
        simp only [List.nil_append]
        exact key
      · have hd : d0 = r.1 := le_antisymm hd0 (not_lt.mp h0)
        rw [e1, if_neg h0]
        simp only [List.nil_append]
        rw [hd]
        exact key
  show mk (d0, d1) (gapsOf d0 d1 (gapsOf d0 d1 segs)) = mk (d0, d1) segs
  rw [hL]

end Intervals

namespace Intervals

lemma cutOne_bounds (p q : Seg) : ∀ r ∈ cutOne p q, p.1 ≤ r.1 ∧ r.2 ≤ p.2 := by
  intro r hr
  unfold cutOne at hr
  rcases List.mem_append.mp hr with h | h
  · by_cases hc : p.1 < min p.2 q.1
    · rw [if_pos hc] at h
      simp only [List.mem_singleton] at h
      rw [h]
      exact ⟨le_refl _, min_le_left _ _⟩
    · rw [if_neg hc] at h
      exact absurd h (List.not_mem_nil _)
  · by_cases hc : max p.1 q.2 < p.2
    · rw [if_pos hc] at h
      simp only [List.mem_singleton] at h
      rw [h]
      exact ⟨le_max_left _ _, le_refl _⟩
    · rw [if_neg hc] at h
      exact absurd h (List.not_mem_nil _)

lemma cutMany_cons (ps : List Seg) (q : Seg) (qs : List Seg) :
    cutMany ps (q :: qs) = cutMany (ps.flatMap (fun p => cutOne p q)) qs := rfl

lemma cutMany_bounds (qs : List Seg) : ∀ (ps : List Seg) (lo hi : Int),
    WithinSegs lo hi ps → WithinSegs lo hi (cutMany ps qs) := by
  induction qs with
  | nil => exact fun ps lo hi h => h
  | cons q qs2 ih =>
    intro ps lo hi h
    rw [cutMany_cons]
    refine ih _ lo hi ?_
    intro r hr
    obtain ⟨p, hp, hrp⟩ := List.mem_flatMap.mp hr
    have h1 := h p hp
    have h2 := cutOne_bounds p q r hrp
    exact ⟨le_trans h1.1 h2.1, le_trans h2.2 h1.2⟩

lemma canonical_of (X : Intervals) (hsep : SepSegs X.segments) (hne : NonemptySegs X.segments)
    (hbd : WithinSegs X.domain.1 X.domain.2 X.segments) : InCanonicalForm X :=
  ⟨sep_sorted _ hsep hne, hsep, hne, hbd⟩

lemma canonical_mk_cleanup (d : Seg) (L : List Seg) (hbd : WithinSegs d.1 d.2 L) :
    InCanonicalForm (mk d (cleanupSegs L)) :=
  canonical_of _ (cleanupSegs_canon L).1 (cleanupSegs_canon L).2
    (cleanupSegs_bounds L d.1 d.2 hbd)

lemma canonical_empty (d : Seg) : InCanonicalForm (mk d []) :=
  ⟨List.Pairwise.nil, List.Pairwise.nil,
    fun p hp => absurd hp (List.not_mem_nil p),
    fun p hp => absurd hp (List.not_mem_nil p)⟩

lemma canonical_add (X : Intervals) (s e : Int) (h : InCanonicalForm X) :
    InCanonicalForm (add_interval X s e) := by
  simp only [add_interval]
  split
  · exact h
  · apply canonical_mk_cleanup
    intro p hp
    rcases List.mem_cons.mp hp with rfl | hp2
    · exact ⟨le_max_right _ _, min_le_right _ _⟩
    · exact h.2.2.2 p hp2

lemma canonical_merge (X Y : Intervals) : InCanonicalForm (merge X Y) := by
  simp only [merge]
  apply canonical_mk_cleanup
  intro p hp
  obtain ⟨q, _, hpq⟩ := List.mem_map.mp hp
  rw [← hpq]
  exact ⟨le_max_right _ _, min_le_right _ _⟩

lemma canonical_intersect (X Y : Intervals) (hX : InCanonicalForm X)
    (hY : InCanonicalForm Y) : InCanonicalForm (intersect X Y) := by
  simp only [intersect]
  apply canonical_mk_cleanup
  intro p hp
  obtain ⟨a, ha, hpa⟩ := List.mem_flatMap.mp hp
  obtain ⟨b, hb, hpb⟩ := List.mem_map.mp hpa
  rw [← hpb]
  have h1 := hX.2.2.2 a ha
  have h2 := hY.2.2.2 b hb
  exact ⟨max_le_max h1.1 h2.1, min_le_min h1.2 h2.2⟩

lemma canonical_compl (X : Intervals) (h : InCanonicalForm X) :
    InCanonicalForm (get_complement X) := by
  obtain ⟨_, hsep, hne, hbd⟩ := h
  obtain ⟨gsep, gne, gbd⟩ :=
    gapsOf_canon X.segments X.domain.1 X.domain.2 hsep hne hbd
  exact canonical_of _ gsep gne gbd

lemma canonical_isub (X Y : Intervals) (hX : InCanonicalForm X) :
    InCanonicalForm (isub X Y) := by
  simp only [isub]
  apply canonical_mk_cleanup
  exact cutMany_bounds Y.segments X.segments X.domain.1 X.domain.2 hX.2.2.2

lemma canonical_trim (X : Intervals) (s e : Int) (Y : Intervals)
    (h : trim_to X s e = .ok Y) : InCanonicalForm Y := by
  unfold trim_to at h
  by_cases hc : e < s
  · rw [if_pos hc] at h
    exact absurd h (by simp)
  · rw [if_neg hc] at h
    simp only [Except.ok.injEq] at h
    rw [← h]
    apply canonical_mk_cleanup
    intro p hp
    obtain ⟨q, _, hpq⟩ := List.mem_map.mp hp
    rw [← hpq]
    exact ⟨le_max_right _ _, min_le_right _ _⟩

lemma canonical_cleanup_op (X : Intervals) (h : InCanonicalForm X) :
    InCanonicalForm (cleanup X) := by
  show InCanonicalForm (mk X.domain (cleanupSegs X.segments))
  exact canonical_mk_cleanup X.domain X.segments h.2.2.2

lemma reachable_canonical (X : Intervals) (h : Reachable X) : InCanonicalForm X := by
  induction h with
  | ctor_default => exact canonical_empty _
  | ctor_pair d => exact canonical_empty d
  | ctor_start_end s e => exact canonical_empty _
  | step_add W s e _ ih => exact canonical_add W s e ih
  | step_merge W Y _ _ _ _ => exact canonical_merge W Y
  | step_intersect W Y _ _ ihX ihY => exact canonical_intersect W Y ihX ihY
  | step_compl W _ ih => exact canonical_compl W ih
  | step_isub W Y _ _ ihX _ => exact canonical_isub W Y ihX
  | step_trim W s e Y _ heq _ => exact canonical_trim W s e Y heq
  | step_cleanup W _ ih => exact canonical_cleanup_op W ih

end Intervals

lemma bool_eq_of_iff {a b : Bool} (h : a = true ↔ b = true) : a = b := by
  cases a <;> cases b <;> simp_all

lemma shapeMatchFrom_oob (v : List Int) (s : Int) (p : List Int) (j : Int)
    (h : ¬ (0 ≤ j ∧ j < (v.length : Int))) : shapeMatchFrom v (s :: p) j = false := by
  simp only [shapeMatchFrom, if_neg h]

lemma shapeMatchFrom_cons_m1 (v : List Int) (p : List Int) (j : Int)
    (hj : 0 ≤ j) (hjl : j < (v.length : Int)) :
    shapeMatchFrom v ((-1) :: p) j = shapeMatchFrom v p (j + 1) := by
  simp only [shapeMatchFrom, if_pos (And.intro hj hjl)]
  simp

lemma shapeMatchFrom_cons_m2 (v : List Int) (p : List Int) (j : Int)
    (hj : 0 ≤ j) (hjl : j < (v.length : Int)) :
    shapeMatchFrom v ((-2) :: p) j =
      shapeMatchFrom v p ((v.length : Int) - (p.length : Int)) := by
  simp only [shapeMatchFrom, if_pos (And.intro hj hjl)]
  simp

lemma shapeMatchFrom_cons_m3 (v : List Int) (p : List Int) (j : Int)
    (hj : 0 ≤ j) (hjl : j < (v.length : Int)) :
    shapeMatchFrom v ((-3) :: p) j = shapeMatchFrom v p (v.length : Int) := by
  simp only [shapeMatchFrom, if_pos (And.intro hj hjl)]
  simp

lemma shapeMatchFrom_cons_exact (v : List Int) (s : Int) (p : List Int) (j : Int)
    (hs : 0 ≤ s) (hj : 0 ≤ j) (hjl : j < (v.length : Int)) :
    shapeMatchFrom v (s :: p) j =
      if v.getD j.toNat 0 == s then shapeMatchFrom v p (j + 1) else false := by
  have h1 : (s == (-1 : Int)) = false := by
    simp only [beq_eq_false_iff_ne]
    omega
  have h2 : (s == (-2 : Int)) = false := by
    simp only [beq_eq_false_iff_ne]
    omega
  have h3 : (s == (-3 : Int)) = false := by
    simp only [beq_eq_false_iff_ne]
    omega
  simp only [shapeMatchFrom, if_pos (And.intro hj hjl), h1, h2, h3,
    Bool.false_eq_true, if_false]

lemma shapeMatchFrom_exact (v : List Int) : ∀ p : List Int, (∀ s ∈ p, 0 ≤ s) →
    ∀ j : Nat, j ≤ v.length → (shapeMatchFrom v p (j : Int) = true ↔ v.drop j = p) := by
  intro p
  induction p with
  | nil =>
    intro _ j hj
    simp only [shapeMatchFrom]
    rw [List.drop_eq_nil_iff]
    constructor
    · intro h
      have h2 : (j : Int) = (v.length : Int) := beq_iff_eq.mp h
      omega
    · intro h
      have h2 : (j : Int) = (v.length : Int) := by omega
      exact beq_iff_eq.mpr h2
  | cons s p2 ih =>
    intro hp j hj
    have hs : 0 ≤ s := hp s (List.mem_cons_self _ _)
    have hp2 : ∀ t ∈ p2, 0 ≤ t := fun t ht => hp t (List.mem_cons_of_mem _ ht)
    by_cases hjl : j < v.length
    · have hjl2 : (j : Int) < (v.length : Int) := by exact_mod_cast hjl
      rw [shapeMatchFrom_cons_exact v s p2 _ hs (Int.natCast_nonneg j) hjl2,
        Int.toNat_natCast, List.getD_eq_getElem v 0 hjl,
        List.drop_eq_getElem_cons hjl]
      by_cases heq : v[j] = s
      · rw [heq]
        simp only [beq_self_eq_true, if_true]
        have hcast : ((j : Int) + 1) = ((j + 1 : Nat) : Int) := by push_cast; ring
        rw [hcast, ih hp2 (j + 1) (by omega)]
        simp only [List.cons.injEq, true_and]
      · have hbeq : (v[j] == s) = false := beq_eq_false_iff_ne.mpr heq
        rw [hbeq]
        simp only [Bool.false_eq_true, if_false, false_iff]
        intro hcontra
        rw [List.cons.injEq] at hcontra
        exact heq hcontra.1
    · have hjl2 : ¬ ((j : Int) < (v.length : Int)) := by exact_mod_cast hjl
      rw [shapeMatchFrom_oob v s p2 _ (fun hc => hjl2 hc.2)]
      simp only [Bool.false_eq_true, false_iff]
      intro hcontra
      have hj2 : j = v.length := by omega
      have hnil : v.drop j = [] := by
        rw [hj2]
        exact List.drop_length v
      rw [hnil] at hcontra
      exact List.noConfusion hcontra

lemma shapeMatch_exact_iff (shape v : List Int) (h : ∀ s ∈ shape, 0 ≤ s) :
    shapeMatch shape v = true ↔ shape = v := by
  unfold shapeMatch
  have e0 := shapeMatchFrom_exact v shape h 0 (Nat.zero_le _)
  rw [Nat.cast_zero] at e0
  rw [e0, List.drop_zero]
  exact eq_comm

lemma shapeMatch_skip_leading (q v : List Int) (h : ∀ s ∈ q, 0 ≤ s) :
    shapeMatch ((-2) :: q) v = true ↔
      (1 ≤ v.length ∧ q.length ≤ v.length ∧ v.drop (v.length - q.length) = q) := by
  unfold shapeMatch
  by_cases hv : 1 ≤ v.length
  · have hjl : (0 : Int) < (v.length : Int) := by exact_mod_cast hv
    rw [shapeMatchFrom_cons_m2 v q 0 (le_refl 0) hjl]
    by_cases hq : q.length ≤ v.length
    · have hcast : (v.length : Int) - (q.length : Int) = ((v.length - q.length : Nat) : Int) := by
        push_cast [hq]
        ring
      rw [hcast, shapeMatchFrom_exact v q h (v.length - q.length) (by omega)]
      simp [hv, hq]
    · cases q with
      | nil => exact absurd (Nat.zero_le _) hq
      | cons s q2 =>
        have hneg : (v.length : Int) - (((s :: q2).length : Nat) : Int) < 0 := by
          simp only [List.length_cons] at hq ⊢
          push_cast
          omega
        rw [shapeMatchFrom_oob v s q2 _ (fun hc => absurd hc.1 (not_le.mpr hneg))]
        simp only [Bool.false_eq_true, false_iff]
        rintro ⟨_, h2, _⟩
        simp only [List.length_cons] at hq h2
        omega
  · have h0 : v.length = 0 := by omega
    have hno : ¬ ((0 : Int) < (v.length : Int)) := by
      rw [h0]
      simp
    rw [shapeMatchFrom_oob v (-2) q 0 (fun hc => hno hc.2)]
    simp [hv]

lemma shapeMatchFrom_exact_m3 (v : List Int) : ∀ p : List Int, (∀ s ∈ p, 0 ≤ s) →
    ∀ j : Nat, j ≤ v.length →
    (shapeMatchFrom v (p ++ [-3]) (j : Int) = true ↔
      (j + p.length < v.length ∧ (v.drop j).take p.length = p)) := by
  intro p
  induction p with
  | nil =>
    intro _ j hj
    simp only [List.nil_append]
    by_cases hjl : j < v.length
    · have hjl2 : (j : Int) < (v.length : Int) := by exact_mod_cast hjl
      rw [shapeMatchFrom_cons_m3 v [] _ (Int.natCast_nonneg j) hjl2]
      simp only [shapeMatchFrom, beq_self_eq_true]
      simp [hjl]
    · have hjl2 : ¬ ((j : Int) < (v.length : Int)) := by exact_mod_cast hjl
      rw [shapeMatchFrom_oob v (-3) [] _ (fun hc => hjl2 hc.2)]
      simp [hjl]
  | cons s p2 ih =>
    intro hp j hj
    have hs : 0 ≤ s := hp s (List.mem_cons_self _ _)
    have hp2 : ∀ t ∈ p2, 0 ≤ t := fun t ht => hp t (List.mem_cons_of_mem _ ht)
    simp only [List.cons_append]
    by_cases hjl : j < v.length
    · have hjl2 : (j : Int) < (v.length : Int) := by exact_mod_cast hjl
      rw [shapeMatchFrom_cons_exact v s (p2 ++ [-3]) _ hs (Int.natCast_nonneg j) hjl2,
        Int.toNat_natCast, List.getD_eq_getElem v 0 hjl,
        List.drop_eq_getElem_cons hjl]
      by_cases heq : v[j] = s
      · rw [heq]
        simp only [beq_self_eq_true, if_true]
        have hcast : ((j : Int) + 1) = ((j + 1 : Nat) : Int) := by push_cast; ring
        rw [hcast, ih hp2 (j + 1) (by omega)]
        simp only [List.length_cons, List.take_succ_cons, List.cons.injEq, true_and]
        constructor
        · rintro ⟨h1, h2⟩
          exact ⟨by omega, h2⟩
        · rintro ⟨h1, h2⟩
          exact ⟨by omega, h2⟩
      · have hbeq : (v[j] == s) = false := beq_eq_false_iff_ne.mpr heq
        rw [hbeq]
        simp only [Bool.false_eq_true, if_false, false_iff]
        rintro ⟨_, hcontra⟩
        rw [List.length_cons, List.take_succ_cons, List.cons.injEq] at hcontra
        exact heq hcontra.1
    · have hjl2 : ¬ ((j : Int) < (v.length : Int)) := by exact_mod_cast hjl
      rw [shapeMatchFrom_oob v s (p2 ++ [-3]) _ (fun hc => hjl2 hc.2)]
      simp only [Bool.false_eq_true, false_iff]
      rintro ⟨h1, _⟩
      simp only [List.length_cons] at h1
      omega

lemma shapeMatch_skip_trailing (q v : List Int) (h : ∀ s ∈ q, 0 ≤ s) :
    shapeMatch (q ++ [-3]) v = true ↔ (q.length < v.length ∧ v.take q.length = q) := by
  unfold shapeMatch
  have e0 := shapeMatchFrom_exact_m3 v q h 0 (Nat.zero_le _)
  rw [Nat.cast_zero] at e0
  rw [e0, List.drop_zero]
  simp

lemma shapeMatch_any_cons (q : List Int) (k : Int) (v : List Int) (h : ∀ s ∈ q, 0 ≤ s) :
    shapeMatch ((-1) :: q) (k :: v) = shapeMatch q v := by
  unfold shapeMatch
  have hjl : (0 : Int) < (((k :: v).length : Nat) : Int) := by
    simp only [List.length_cons]
    push_cast
    omega
  rw [shapeMatchFrom_cons_m1 (k :: v) q 0 (le_refl 0) hjl]
  apply bool_eq_of_iff
  have e1 := shapeMatchFrom_exact (k :: v) q h 1 (by simp only [List.length_cons]; omega)
  have e2 := shapeMatchFrom_exact v q h 0 (Nat.zero_le _)
  rw [Nat.cast_one] at e1
  rw [Nat.cast_zero] at e2
  rw [zero_add, e1, e2, List.drop_zero]
  simp

lemma shapeMatch_any_nil (q : List Int) : shapeMatch ((-1) :: q) [] = false := by
  unfold shapeMatch
  apply shapeMatchFrom_oob
  simp

/-- A sample argument name for concrete instantiations of the wrapper
constructors. -/
def sampleName : String := "x"

/-- A sample buffer: a one-dimensional C-double array of length 3. -/
def sampleBuffer : PyBuffer := { format := some (['d']), itemsize := 8, shape := [3] }

/-- Claim C1: the claim states that `Intervals(start, end)` produces an empty
set whose domain equals `(start, end)`.  Evaluating the embedded constructor at
the failing input `(1, 5)` shows the produced set is empty but its domain is
the default-initialized `(0, 0)`, not `(1, 5)`: the body's
`Intervals(make_pair(start, end));` only builds a discarded temporary. -/
theorem fromStartEnd_discards_arguments :
    (Intervals.fromStartEnd 1 5).domain = (0, 0) ∧
    (Intervals.fromStartEnd 1 5).domain ≠ (1, 5) ∧
    (Intervals.fromStartEnd 1 5).segments = [] := by
  refine ⟨rfl, ?_, rfl⟩
  decide

/-- Claim C2: every `Intervals` value observable by a caller — produced by the
public constructors and any sequence of the public operations — has its
segments sorted ascending by start, pairwise non-overlapping and non-adjacent,
each with start strictly below end, and each contained in the domain. -/
theorem reachable_sets_canonical (X : Intervals) (h : Intervals.Reachable X) :
    Intervals.InCanonicalForm X :=
  Intervals.reachable_canonical X h

/-- Witness for C2 at a concrete operation sequence: constructing over domain
`(0, 10)` and adding the interval `(2, 5)`. -/
theorem reachable_sets_canonical_witness :
    Intervals.InCanonicalForm (Intervals.add_interval (Intervals.fromPair (0, 10)) 2 5) :=
  reachable_sets_canonical _
    (Intervals.Reachable.step_add _ 2 5 (Intervals.Reachable.ctor_pair _))

/-- Counterexample to claim C3: the claim states that constructing over a
domain with start above end surfaces an `InvalidDomain` error and never yields
a set whose domain has start above end.  The one-argument constructor of
Intervals.h line 23 is total and performs no check: constructing over `(5, 1)`
yields a set whose domain start exceeds its domain end. -/
theorem domain_left_gt_right_not_rejected :
    (Intervals.fromPair (5, 1)).domain.1 > (Intervals.fromPair (5, 1)).domain.2 := by
  decide

/-- Claim C3 as amended: construction stores the given domain verbatim without
validation (no error is surfaced, even for an inverted domain), while
`trim_to(start, end)` with start above end surfaces `InvalidDomain` and yields
no set. -/
theorem domain_validation_amended :
    (∀ d : Seg, (Intervals.fromPair d).domain = d ∧ (Intervals.fromPair d).segments = []) ∧
    (∀ (X : Intervals) (s e : Int), e < s →
      Intervals.trim_to X s e = .error .invalidDomain) := by
  constructor
  · exact fun d => ⟨rfl, rfl⟩
  · intro X s e h
    simp [Intervals.trim_to, h]

/-- Witness for the amended C3 at concrete inputs. -/
theorem domain_validation_amended_witness :
    Intervals.trim_to Intervals.defaultIntervals 5 1 = .error .invalidDomain ∧
    (Intervals.fromPair (7, 2)).domain = (7, 2) :=
  ⟨domain_validation_amended.2 Intervals.defaultIntervals 5 1 (by decide),
   (domain_validation_amended.1 (7, 2)).1⟩

/-- Claim C4: for every canonicalized set, taking the complement twice returns
a set equal to the original — same domain, same segments. -/
theorem complement_involution (X : Intervals) (h : Intervals.InCanonicalForm X) :
    Intervals.get_complement (Intervals.get_complement X) = X :=
  Intervals.compl_compl X h

/-- Witness for C4 at the spec's own scenario: segments `[0,10), [20,30)` over
domain `(0, 100)`. -/
theorem complement_involution_witness :
    Intervals.InCanonicalForm (Intervals.mk (0, 100) [(0, 10), (20, 30)]) ∧
    Intervals.get_complement (Intervals.get_complement
      (Intervals.mk (0, 100) [(0, 10), (20, 30)])) =
      Intervals.mk (0, 100) [(0, 10), (20, 30)] :=
  ⟨by decide, complement_involution _ (by decide)⟩

/-- Claim C5: `cleanup()` twice equals `cleanup()` once, and on an
already-canonical set `cleanup()` changes nothing. -/
theorem cleanup_idempotent (X : Intervals) :
    Intervals.cleanup (Intervals.cleanup X) = Intervals.cleanup X ∧
    (Intervals.InCanonicalForm X → Intervals.cleanup X = X) := by
  obtain ⟨d, segs⟩ := X
  constructor
  · show Intervals.mk d (Intervals.cleanupSegs (Intervals.cleanupSegs segs)) =
      Intervals.mk d (Intervals.cleanupSegs segs)
    rw [Intervals.cleanupSegs_idem]
  · intro h
    show Intervals.mk d (Intervals.cleanupSegs segs) = Intervals.mk d segs
    rw [Intervals.cleanupSegs_id segs h.2.1 h.2.2.1]

/-- Witness for C5 at a concrete canonical set. -/
theorem cleanup_idempotent_witness :
    Intervals.cleanup (Intervals.cleanup (Intervals.mk (0, 10) [(1, 3), (5, 7)])) =
      Intervals.cleanup (Intervals.mk (0, 10) [(1, 3), (5, 7)]) ∧
    Intervals.cleanup (Intervals.mk (0, 10) [(1, 3), (5, 7)]) =
      Intervals.mk (0, 10) [(1, 3), (5, 7)] :=
  ⟨(cleanup_idempotent _).1, (cleanup_idempotent _).2 (by decide)⟩

/-- Claim C6: a call to `get_complement()` leaves the receiver unchanged — its
domain and segments are identical before and after the call.  The method is
declared `const` (Intervals.h line 30) and specified pure, so in the
state-passing embedding the receiver component after the call is the receiver
before it. -/
theorem get_complement_const_receiver (X : Intervals) :
    (Intervals.get_complementM X).1 = X ∧
    (Intervals.get_complementM X).1.domain = X.domain ∧
    (Intervals.get_complementM X).1.segments = X.segments :=
  ⟨rfl, rfl, rfl⟩

/-- Counterexample to claim C7: the claim states that a `-3` pattern entry
matches zero or more trailing axes, so pattern `[5, -3]` would accept the
one-axis shape `[5]` (zero trailing axes).  The entry `5` alone does accept
`[5]`, but the loop requires the cursor to be strictly below `ndim` to process
the `-3` entry, so `[5, -3]` rejects `[5]`. -/
theorem shape_wildcard_zero_trailing_fails :
    shapeMatch [5] [5] = true ∧ shapeMatch [5, -3] [5] = false := by
  decide

/-- Claim C7 as amended: a nonnegative entry matches exactly one axis of that
length, and a pattern of only nonnegative entries succeeds iff the shape
equals the pattern elementwise; `-1` matches exactly one axis of any length
(and never a missing axis); a leading `-2` (rest of the pattern exact) matches
zero or more leading axes provided the buffer has at least one axis and at
least as many axes as remaining pattern entries; a trailing `-3` (front of the
pattern exact) matches one or more — not zero — trailing axes. -/
theorem shape_pattern_semantics_amended :
    (∀ shape v : List Int, (∀ s ∈ shape, 0 ≤ s) →
      (shapeMatch shape v = true ↔ shape = v)) ∧
    (∀ (q : List Int) (k : Int) (v : List Int), (∀ s ∈ q, 0 ≤ s) →
      shapeMatch ((-1) :: q) (k :: v) = shapeMatch q v ∧
        shapeMatch ((-1) :: q) [] = false) ∧
    (∀ q v : List Int, (∀ s ∈ q, 0 ≤ s) →
      (shapeMatch ((-2) :: q) v = true ↔
        (1 ≤ v.length ∧ q.length ≤ v.length ∧ v.drop (v.length - q.length) = q))) ∧
    (∀ q v : List Int, (∀ s ∈ q, 0 ≤ s) →
      (shapeMatch (q ++ [-3]) v = true ↔
        (q.length < v.length ∧ v.take q.length = q))) := by
  refine ⟨shapeMatch_exact_iff, ?_, shapeMatch_skip_leading, shapeMatch_skip_trailing⟩
  intro q k v hq
  exact ⟨shapeMatch_any_cons q k v hq, shapeMatch_any_nil q⟩

/-- Witness for the amended C7 at concrete patterns and shapes. -/
theorem shape_pattern_semantics_amended_witness :
    shapeMatch [3, 4] [3, 4] = true ∧
    shapeMatch [-1, 6] [9, 6] = shapeMatch [6] [6] ∧
    shapeMatch [-2, 3] [9, 3] = true ∧
    shapeMatch [3, -3] [3, 7] = true := by
  obtain ⟨hA, hB, hC, hD⟩ := shape_pattern_semantics_amended
  refine ⟨?_, ?_, ?_, ?_⟩
  · exact (hA [3, 4] [3, 4] (by decide)).mpr rfl
  · exact (hB [6] 9 [6] (by decide)).1
  · exact (hC [3] [9, 3] (by decide)).mpr (by decide)
  · exact (hD [3] [3, 7] (by decide)).mpr (by decide)

/-- Claim C8: for a non-optional source the checking constructor either
succeeds with the validated view, or fails with the not-a-buffer error exactly
when the source exposes no buffer, the wrong-type error exactly when a buffer
is exposed but its element type fails the check, or the wrong-shape error
exactly when the type check passes but the shape pattern fails — in that
order. -/
theorem buffer_checked_ctor_trichotomy (t : CType) (nm : String)
    (src : Option PyBuffer) (pat : List Int) :
    (src = none → bufferWrapperChecked t nm src false pat = .error (.buffer nm)) ∧
    (∀ b, src = some b → check_buffer_type t b = false →
      bufferWrapperChecked t nm src false pat = .error (.dtype nm (type_name t))) ∧
    (∀ b, src = some b → check_buffer_type t b = true → shapeMatch pat b.shape = false →
      bufferWrapperChecked t nm src false pat = .error (.shape nm)) ∧
    (∀ b, src = some b → check_buffer_type t b = true → shapeMatch pat b.shape = true →
      bufferWrapperChecked t nm src false pat = .ok (some b)) := by
  refine ⟨?_, ?_, ?_, ?_⟩
  · rintro rfl
    rfl
  · rintro b rfl hc
    simp [bufferWrapperChecked, bufferWrapperPlain, hc]
  · rintro b rfl hc hsm
    simp [bufferWrapperChecked, bufferWrapperPlain, hc, hsm]
  · rintro b rfl hc hsm
    simp [bufferWrapperChecked, bufferWrapperPlain, hc, hsm]

/-- Witness for C8: the missing-buffer error and the success case at concrete
inputs. -/
theorem buffer_checked_ctor_trichotomy_witness :
    bufferWrapperChecked CType.double sampleName none false [3] =
      .error (.buffer sampleName) ∧
    bufferWrapperChecked CType.double sampleName (some sampleBuffer) false [3] =
      .ok (some sampleBuffer) :=
  ⟨(buffer_checked_ctor_trichotomy CType.double sampleName none [3]).1 rfl,
   (buffer_checked_ctor_trichotomy CType.double sampleName (some sampleBuffer) [3]).2.2.2
     sampleBuffer rfl (by decide) (by decide)⟩

/-- Claim C9: `check_buffer_type<T>` accepts a view exactly when the view's
element type matches `T`: for integral `T` iff the format string exists, is
non-empty, starts with one of `b`, `h`, `i`, `l`, `q` and the item size equals
`sizeof(T)`; for `float` iff it starts with `f` and the item size is 4; for
`double` iff it starts with `d` and the item size is 8; and it rejects every
view for any other non-integral `T`. -/
theorem check_buffer_type_characterization (t : CType) (view : PyBuffer) :
    check_buffer_type t view = true ↔ SpecBufferTypeOk t view := by
  cases t with
  | integral n =>
    cases hf : view.format with
    | none => simp [check_buffer_type, SpecBufferTypeOk, _check_buffer_helper, hf]
    | some l =>
      cases l with
      | nil => simp [check_buffer_type, SpecBufferTypeOk, _check_buffer_helper, hf]
      | cons c cs =>
        simp only [check_buffer_type, SpecBufferTypeOk, _check_buffer_helper, hf,
          Bool.and_eq_true, List.any_eq_true, beq_iff_eq, Option.some.injEq,
          List.cons.injEq]
        aesop
  | float =>
    cases hf : view.format with
    | none => simp [check_buffer_type, SpecBufferTypeOk, _check_buffer_helper, hf]
    | some l =>
      cases l with
      | nil => simp [check_buffer_type, SpecBufferTypeOk, _check_buffer_helper, hf]
      | cons c cs =>
        simp only [check_buffer_type, SpecBufferTypeOk, _check_buffer_helper, hf,
          Bool.and_eq_true, List.any_eq_true, beq_iff_eq, Option.some.injEq,
          List.cons.injEq, List.mem_singleton]
        aesop
  | double =>
    cases hf : view.format with
    | none => simp [check_buffer_type, SpecBufferTypeOk, _check_buffer_helper, hf]
    | some l =>
      cases l with
      | nil => simp [check_buffer_type, SpecBufferTypeOk, _check_buffer_helper, hf]
      | cons c cs =>
        simp only [check_buffer_type, SpecBufferTypeOk, _check_buffer_helper, hf,
          Bool.and_eq_true, List.any_eq_true, beq_iff_eq, Option.some.injEq,
          List.cons.injEq, List.mem_singleton]
        aesop
  | otherNonIntegral => simp [check_buffer_type, SpecBufferTypeOk]

/-- Claim C10: with `optional = true` and a source that exposes no buffer, the
checking constructor returns normally with the buffer pointer unset and runs no
element-type or shape validation — for every type parameter and every shape
pattern, including ones nothing could satisfy. -/
theorem optional_missing_buffer_skips_checks (t : CType) (nm : String) (pat : List Int) :
    bufferWrapperChecked t nm none true pat = .ok none := rfl
